import Mathlib

/-!
Verification of the tournament capacity and fixture generation engine of the
tournament-planner repository (backend/internal/services/tournament_service.go).

The Go code is shallowly embedded:

* Go `int` values are modelled as `Nat`; every value reaching the embedded
  arithmetic is non-negative after the request validation performed by the
  HTTP binding layer (`binding:"min=1"` and similar), and Go integer division
  on non-negative operands agrees with `Nat` division.
* `time.Time` date values are modelled by their hour count (`startHours`,
  `endHours`), so that Go's `end.Sub(start).Hours()` becomes `endHours -
  startHours`; clock strings such as "09:00" parsed by `time.Parse("15:04", _)`
  are modelled as minutes since midnight.
* `utils.GenerateUUID()` is modelled as handing out distinct identifiers in
  creation order (the natural number position of the match in the generated
  list); only distinctness of the generated ids is relevant.
* `utils.RandomInt` is modelled as an oracle `r : Nat → Nat` with the
  guarantee `r m < m` for `0 < m` that `crypto/rand` provides.
* Struct fields never read or written by the engine (scores, venues,
  timestamps, contact data, ...) are omitted from the embedded records.
-/

/-- Embeds `models.Participant` (internal/models/participant.go), keeping the
fields the fixture engine reads or writes: `ID`, `Name` and `Seed`
(`*int`, embedded as `Option Nat`). -/
structure Participant where
  id : String
  name : String
  seed : Option Nat
deriving DecidableEq, Repr, Inhabited

/-- Embeds `models.Match` (internal/models/match.go), keeping the fields the
fixture generators write: `ID` (a UUID, modelled as the creation index),
`RoundNumber`, `MatchNumber`, `Stage`, `Status`, `Participant1ID`,
`Participant2ID` and `NextMatchID`. -/
structure MatchRec where
  id : Nat
  roundNumber : Nat
  matchNumber : Nat
  stage : String
  status : String
  participant1Id : Option String
  participant2Id : Option String
  nextMatchId : Option Nat
deriving DecidableEq, Repr, Inhabited

/-- Embeds `models.TournamentFormat` (internal/models/tournament.go), a string
enumeration; `other` stands for any string outside the five named constants
and is handled by the `default` arm of the Go switches. -/
inductive TournamentFormat
  | singleElimination
  | doubleElimination
  | roundRobin
  | groupToKnockout
  | swiss
  | other
deriving DecidableEq, Repr

/-- Embeds `models.FormatConfig` (internal/models/tournament.go); the Go zero
value of an `int` field is `0`, which the capacity switch treats as
"not configured". -/
structure FormatConfig where
  numberOfGroups : Nat
  groupSize : Nat
  numberOfRounds : Nat
deriving DecidableEq, Repr

/-- Embeds `models.DayHours` (internal/models/tournament.go). The Go struct
stores clock strings ("09:00"); they are modelled as minutes since midnight,
which is what `time.Parse("15:04", _)` followed by `Sub` computes with. -/
structure DayHours where
  startTime : Nat
  endTime : Nat
deriving DecidableEq, Repr

/-- Embeds `services.CreateTournamentRequest` restricted to the fields that
`calculateTournamentCapacity` reads. `models.OperationalHours` is a
`map[string]DayHours`; only the collection of entries matters to the average,
so it is embedded as a list. `venueCount` stands for `len(req.Venues)`. -/
structure CreateTournamentRequest where
  formatType : TournamentFormat
  formatConfig : Option FormatConfig
  startHours : Nat
  endHours : Nat
  maxMatchesPerDay : Nat
  operationalHours : List DayHours
  avgMatchDuration : Nat
  bufferTime : Nat
  venueCount : Nat
deriving DecidableEq, Repr

/-- Embeds `services.SeedingData` (tournament_service.go line 383). -/
structure SeedingData where
  participantId : String
  seed : Nat
deriving DecidableEq, Repr

/-- Fuel-indexed ceiling base-2 logarithm. `int(math.Ceil(math.Log2(float64(n))))`
from `generateSingleEliminationFixtures` is modelled as the exact ceiling
logarithm (float `Log2`/`Ceil` are exact on the powers of two that decide the
value, and correctly rounded in between for every participant count a
tournament can hold). The fuel argument only makes the halving recursion
structural; `ceilLog2Fuel_eq_clog` shows that with enough fuel it computes
`Nat.clog 2`. -/
def ceilLog2Fuel : Nat → Nat → Nat
  | 0, _ => 0
  | fuel + 1, n => if n ≤ 1 then 0 else ceilLog2Fuel fuel ((n + 1) / 2) + 1

/-- Ceiling base-2 logarithm with always-sufficient fuel. -/
def ceilLog2 (n : Nat) : Nat := ceilLog2Fuel n n

theorem ceilLog2Fuel_eq_clog (n : Nat) : ∀ fuel, n ≤ fuel → ceilLog2Fuel fuel n = Nat.clog 2 n := by
  induction n using Nat.strong_induction_on with
  | _ n ih =>
    intro fuel hf
    match fuel with
    | 0 =>
      have hn : n = 0 := Nat.le_zero.mp hf
      subst hn
      simp [ceilLog2Fuel, Nat.clog_zero_right]
    | fuel + 1 =>
      by_cases h1 : n ≤ 1
      · rw [Nat.clog_of_right_le_one h1]
        simp [ceilLog2Fuel, h1]
      · have h2 : 2 ≤ n := by omega
        have hlt : (n + 1) / 2 < n := by omega
        have hfl : (n + 1) / 2 ≤ fuel := by omega
        have hrec := ih ((n + 1) / 2) hlt fuel hfl
        rw [Nat.clog_of_two_le (by norm_num) h2]
        simp only [ceilLog2Fuel, h1, if_false]
        rw [hrec]
        have harg : n + 2 - 1 = n + 1 := by omega
        rw [harg]

theorem ceilLog2_eq_clog (n : Nat) : ceilLog2 n = Nat.clog 2 n :=
  ceilLog2Fuel_eq_clog n n le_rfl

/-- Interleaving step of `createBracketPositions`: the Go loop writes
`positions[i*2] = left[i]` and `positions[i*2+1] = right[half-1-i] + half`
for `i < half`, which for the even slots is `left` in order and for the odd
slots is `right` reversed with `half` added. Both recursive results always
have length exactly `half`, so the zip never truncates. -/
def interleavePairs : List Nat → List Nat → List Nat
  | [], _ => []
  | _, [] => []
  | a :: as, b :: bs => a :: b :: interleavePairs as bs

/-- The body of `createBracketPositions` after the two recursive calls
(tournament_service.go lines 624-630): `positions := make([]int, size)` is
zero-initialised, the loop fills slots `0 .. 2*half-1`, and any remaining
slots (present only when `size` is odd) keep the zero value. -/
def buildPositions (size half : Nat) (left right : List Nat) : List Nat :=
  interleavePairs left (right.reverse.map (fun x => x + half)) ++
    List.replicate (size - 2 * half) 0

/-- Embeds `createBracketPositions` (tournament_service.go lines 613-631).
The Go function recurses unconditionally with `half := size / 2` and has no
input validation; the fuel argument makes that recursion structural, and
`none` (fuel exhaustion at every fuel) models the Go recursion never reaching
the `size == 2` base case, i.e. nontermination. The Go code performs two
separate recursive calls for `left` and `right`; both are kept. -/
def createBracketPositions : Nat → Nat → Option (List Nat)
  | 0, _ => none
  | fuel + 1, size =>
    if size = 2 then some [0, 1]
    else
      let half := size / 2
      match createBracketPositions fuel half, createBracketPositions fuel half with
      | some left, some right => some (buildPositions size half left right)
      | _, _ => none

/-- The bracket-positions value for size `2 ^ (k + 1)`, indexed by the
exponent; `createBracketPositions_pow` shows the fuel version computes it. -/
def bracketPos : Nat → List Nat
  | 0 => [0, 1]
  | k + 1 => buildPositions (2 ^ (k + 2)) (2 ^ (k + 1)) (bracketPos k) (bracketPos k)

example : createBracketPositions 8 4 = some [0, 3, 1, 2] := by decide

example : createBracketPositions 8 5 = some [0, 3, 1, 2, 0] := by decide

example : createBracketPositions 9 3 = none := by decide

theorem interleavePairs_length (as : List Nat) : ∀ bs : List Nat, as.length = bs.length →
    (interleavePairs as bs).length = as.length + bs.length := by
  induction as with
  | nil => intro bs h; simp [interleavePairs] at h ⊢; omega
  | cons a as ih =>
    intro bs h
    match bs with
    | [] => simp at h
    | b :: bs =>
      simp only [interleavePairs, List.length_cons] at h ⊢
      have := ih bs (by omega)
      omega

theorem interleavePairs_perm (as : List Nat) : ∀ bs : List Nat, as.length = bs.length →
    (interleavePairs as bs).Perm (as ++ bs) := by
  induction as with
  | nil =>
    intro bs h
    have : bs = [] := List.eq_nil_of_length_eq_zero (by simpa using h.symm)
    subst this
    simp [interleavePairs]
  | cons a as ih =>
    intro bs h
    match bs with
    | [] => simp at h
    | b :: bs =>
      simp only [interleavePairs]
      have h1 : (interleavePairs as bs).Perm (as ++ bs) := ih bs (by simpa using h)
      exact ((h1.cons b).cons a).trans (List.Perm.cons a List.perm_middle.symm)

theorem bracketPos_length (k : Nat) : (bracketPos k).length = 2 ^ (k + 1) := by
  induction k with
  | zero => rfl
  | succ k ih =>
    have hlen : (bracketPos k).length = ((bracketPos k).reverse.map
        (fun x => x + 2 ^ (k + 1))).length := by simp
    have h1 := interleavePairs_length (bracketPos k)
      ((bracketPos k).reverse.map (fun x => x + 2 ^ (k + 1))) hlen
    simp only [bracketPos, buildPositions]
    rw [List.length_append, h1]
    simp only [ih, List.length_replicate, List.length_map, List.length_reverse]
    have hq : (2 : Nat) ^ (k + 2) = 2 ^ (k + 1) * 2 := pow_succ 2 (k + 1)
    omega

theorem bracketPos_perm (k : Nat) : (bracketPos k).Perm (List.range (2 ^ (k + 1))) := by
  induction k with
  | zero => decide
  | succ k ih =>
    have hlen : (bracketPos k).length = ((bracketPos k).reverse.map
        (fun x => x + 2 ^ (k + 1))).length := by simp
    have hint := interleavePairs_perm (bracketPos k)
      ((bracketPos k).reverse.map (fun x => x + 2 ^ (k + 1))) hlen
    have hrepl : 2 ^ (k + 2) - 2 * 2 ^ (k + 1) = 0 := by
      have hq : (2 : Nat) ^ (k + 2) = 2 ^ (k + 1) * 2 := pow_succ 2 (k + 1)
      omega
    have hright : ((bracketPos k).reverse.map (fun x => x + 2 ^ (k + 1))).Perm
        ((List.range (2 ^ (k + 1))).map (fun x => x + 2 ^ (k + 1))) :=
      ((bracketPos k).reverse_perm.trans ih).map _
    have happ : (bracketPos k ++ (bracketPos k).reverse.map
        (fun x => x + 2 ^ (k + 1))).Perm
        (List.range (2 ^ (k + 1)) ++ (List.range (2 ^ (k + 1))).map
          (fun x => x + 2 ^ (k + 1))) :=
      ih.append hright
    have hrange : List.range (2 ^ (k + 1 + 1)) =
        List.range (2 ^ (k + 1)) ++ (List.range (2 ^ (k + 1))).map
          (fun x => x + 2 ^ (k + 1)) := by
      have h2 : 2 ^ (k + 1 + 1) = 2 ^ (k + 1) + 2 ^ (k + 1) := by ring
      rw [h2, List.range_add]
      congr 1
      exact List.map_congr_left (fun a _ => Nat.add_comm _ a)
    simp only [bracketPos, buildPositions, hrepl, List.replicate_zero, List.append_nil]
    rw [hrange]
    exact hint.trans happ

theorem createBracketPositions_pow (k : Nat) : ∀ fuel, k < fuel →
    createBracketPositions fuel (2 ^ (k + 1)) = some (bracketPos k) := by
  induction k with
  | zero =>
    intro fuel hf
    match fuel with
    | fuel + 1 => simp [createBracketPositions, bracketPos]
  | succ k ih =>
    intro fuel hf
    match fuel with
    | fuel + 1 =>
      have hne : 2 ^ (k + 1 + 1) ≠ 2 := by
        show (2 : Nat) ^ (k + 2) ≠ 2
        have h4 : (2 : Nat) ^ (k + 2) = 2 ^ k * 2 * 2 := by
          rw [pow_succ, pow_succ]
        have hpos : 1 ≤ 2 ^ k := Nat.one_le_two_pow
        omega
      have hhalf : 2 ^ (k + 1 + 1) / 2 = 2 ^ (k + 1) := by
        rw [pow_succ]
        exact Nat.mul_div_cancel _ (by norm_num)
      have hrec := ih fuel (by omega)
      simp only [createBracketPositions, hne, if_false, hhalf, hrec]
      rfl

/-- Embeds `calculateTournamentDays` (tournament_service.go lines 250-253):
`int(end.Sub(start).Hours()/24) + 1`, with dates as hour counts. -/
def calculateTournamentDays (startHours endHours : Nat) : Nat :=
  (endHours - startHours) / 24 + 1

/-- Embeds `calculateDailyOperationalMinutes` (tournament_service.go lines
256-275): sums the positive window lengths, counts the windows contributing,
and returns the integer average (0 when no window is positive). -/
def calculateDailyOperationalMinutes (hours : List DayHours) : Nat :=
  let acc := hours.foldl
    (fun acc dh =>
      if dh.startTime < dh.endTime then
        (acc.1 + (dh.endTime - dh.startTime), acc.2 + 1)
      else acc)
    ((0 : Nat), (0 : Nat))
  if acc.2 = 0 then 0 else acc.1 / acc.2

/-- Embeds `calculateTournamentCapacity` (tournament_service.go lines
159-247). The float computations of the round-robin arm (`math.Sqrt`) and the
group-to-knockout scale factor are modelled by their integer counterparts
(`Nat.sqrt`, one fused integer division); both floats are exact on every
value small enough to be a match count, and no claim depends on those arms.
Division by `avgMatchDuration + bufferTime = 0` cannot occur: the request
binding enforces `avg_match_duration >= 5`. -/
def calculateTournamentCapacity (req : CreateTournamentRequest) : Nat :=
  let days := calculateTournamentDays req.startHours req.endHours
  let slotsByDailyCap := req.maxMatchesPerDay * days
  let dailyMinutes := calculateDailyOperationalMinutes req.operationalHours
  let matchesPerVenuePerDay := dailyMinutes / (req.avgMatchDuration + req.bufferTime)
  let totalVenueCapacity := matchesPerVenuePerDay * req.venueCount * days
  let totalMatchSlots :=
    if totalVenueCapacity < slotsByDailyCap then totalVenueCapacity else slotsByDailyCap
  match req.formatType with
  | TournamentFormat.singleElimination => totalMatchSlots + 1
  | TournamentFormat.doubleElimination => (totalMatchSlots + 2) / 2
  | TournamentFormat.roundRobin =>
    let n := (1 + Nat.sqrt (1 + 8 * totalMatchSlots)) / 2
    if totalMatchSlots < n * (n - 1) / 2 then n - 1 else n
  | TournamentFormat.groupToKnockout =>
    (match req.formatConfig with
    | some fc =>
      if 0 < fc.groupSize ∧ 0 < fc.numberOfGroups then
        let matchesPerGroup := fc.groupSize * (fc.groupSize - 1) / 2
        let groupStageMatches := fc.numberOfGroups * matchesPerGroup
        let knockoutTeams := fc.numberOfGroups * 2
        let knockoutMatches := knockoutTeams - 1
        let totalRequired := groupStageMatches + knockoutMatches
        if totalRequired ≤ totalMatchSlots then fc.numberOfGroups * fc.groupSize
        else fc.numberOfGroups * fc.groupSize * totalMatchSlots / totalRequired
      else totalMatchSlots / 3
    | none => totalMatchSlots / 3)
  | TournamentFormat.swiss =>
    let rounds :=
      match req.formatConfig with
      | some fc => if 0 < fc.numberOfRounds then fc.numberOfRounds else 5
      | none => 5
    totalMatchSlots * 2 / rounds
  | TournamentFormat.other => totalMatchSlots / 3

/-- Embeds steps 1-2 of `TournamentService.Create` (tournament_service.go
lines 71-80): the capacity is computed, and a capacity below 2 yields an
error instead of a tournament; `Except.ok` carries the capacity that is
stored as `CapacityLimit` on the created tournament. -/
def createTournament (req : CreateTournamentRequest) : Except String Nat :=
  let capacity := calculateTournamentCapacity req
  if capacity < 2 then
    Except.error "tournament constraints too restrictive - minimum 2 participants required"
  else
    Except.ok capacity

/-- The request of the worked capacity example in the spec: one day
(start = end), 4 matches per day, a single venue, operational hours
09:00-17:00, 30 minute matches with 10 minute buffer, single elimination. -/
def exampleCapacityRequest : CreateTournamentRequest :=
  { formatType := TournamentFormat.singleElimination
    formatConfig := none
    startHours := 0
    endHours := 0
    maxMatchesPerDay := 4
    operationalHours := [{ startTime := 9 * 60, endTime := 17 * 60 }]
    avgMatchDuration := 30
    bufferTime := 10
    venueCount := 1 }

/-- C2: for every constraints input with the single-elimination format the
capacity is `min(maxMatchesPerDay * days, matchesPerVenuePerDay * venueCount
* days) + 1` (days inclusive of both endpoints), and on the spec's worked
example (1 day, cap 4/day, one venue, 480 operational minutes, 40-minute
slots) the result is 5. -/
theorem calculateTournamentCapacity_singleElimination (req : CreateTournamentRequest)
    (hfmt : req.formatType = TournamentFormat.singleElimination) :
    calculateTournamentCapacity req =
      min (req.maxMatchesPerDay * calculateTournamentDays req.startHours req.endHours)
        (calculateDailyOperationalMinutes req.operationalHours /
            (req.avgMatchDuration + req.bufferTime) * req.venueCount *
          calculateTournamentDays req.startHours req.endHours) + 1 ∧
    calculateTournamentCapacity exampleCapacityRequest = 5 := by
  constructor
  · simp only [calculateTournamentCapacity, hfmt]
    congr 1
    split <;> omega
  · decide

/-- C2 witness: the worked example evaluates as the theorem states. -/
theorem calculateTournamentCapacity_singleElimination_witness :
    calculateTournamentCapacity exampleCapacityRequest = 5 :=
  (calculateTournamentCapacity_singleElimination exampleCapacityRequest rfl).2

/-- C5: the tournament creation step never hands a capacity below 2 to the
caller: whenever `createTournament` succeeds the stored capacity is at least
2, and whenever the computed capacity is below 2 the caller receives the
error (reported, not auto-corrected). -/
theorem createTournament_capacity_ge_two (req : CreateTournamentRequest) :
    (∀ c, createTournament req = Except.ok c → 2 ≤ c) ∧
    (calculateTournamentCapacity req < 2 →
      createTournament req =
        Except.error "tournament constraints too restrictive - minimum 2 participants required") := by
  constructor
  · intro c hc
    by_cases h : calculateTournamentCapacity req < 2
    · simp [createTournament, h] at hc
    · simp only [createTournament, h, if_false] at hc
      cases hc
      omega
  · intro h
    simp [createTournament, h]

/-- C5 witness: the worked example request succeeds with capacity 5 >= 2,
and a degenerate request (zero-length operational windows, round robin)
computes capacity 1 and is rejected. -/
theorem createTournament_capacity_ge_two_witness :
    createTournament exampleCapacityRequest = Except.ok 5 ∧ (2 : Nat) ≤ 5 ∧
    createTournament { exampleCapacityRequest with
        formatType := TournamentFormat.roundRobin, operationalHours := [] } =
      Except.error "tournament constraints too restrictive - minimum 2 participants required" :=
  ⟨rfl, (createTournament_capacity_ge_two exampleCapacityRequest).1 5 rfl,
    (createTournament_capacity_ge_two _).2 (by decide)⟩

/-- The participant-index pairs enumerated by the nested loops of
`generateRoundRobinFixtures` (tournament_service.go lines 666-683): the outer
index `i` runs over `0..n-1`, the inner index `j = i+1+k` over `i+1..n-1`,
in exactly this order. -/
def rrPairs (n : Nat) : List (Nat × Nat) :=
  (List.range n).flatMap (fun i => (List.range (n - i - 1)).map (fun k => (i, i + 1 + k)))

/-- Embeds `generateRoundRobinFixtures` (tournament_service.go lines
660-688): one match per generated pair, all in round 1, `matchNumber`
counting from 1 in generation order, participants taken from the seeded
slice by index. -/
def generateRoundRobinFixtures (ps : List Participant) : List MatchRec :=
  (rrPairs ps.length).enum.map (fun pr =>
    { id := pr.1
      roundNumber := 1
      matchNumber := pr.1 + 1
      stage := "main"
      status := "pending"
      participant1Id := some ((ps.getD pr.2.1 default).id)
      participant2Id := some ((ps.getD pr.2.2 default).id)
      nextMatchId := none })

theorem rr_sum (n : Nat) :
    2 * ((List.range n).map (fun i => n - i - 1)).sum = n * (n - 1) := by
  induction n with
  | zero => decide
  | succ n ih =>
    rw [List.range_succ_eq_map]
    simp only [List.map_cons, List.map_map, List.sum_cons]
    have hmap : (List.range n).map ((fun i => n + 1 - i - 1) ∘ Nat.succ) =
        (List.range n).map (fun i => n - i - 1) :=
      List.map_congr_left (fun a _ => by simp only [Function.comp_apply]; omega)
    rw [hmap]
    have hexp : (n + 1) * (n + 1 - 1) = n * (n - 1) + 2 * n := by
      cases n with
      | zero => rfl
      | succ m =>
        simp only [Nat.add_sub_cancel]
        ring
    omega

theorem rrPairs_length (n : Nat) : (rrPairs n).length = n * (n - 1) / 2 := by
  have hl : (rrPairs n).length = ((List.range n).map (fun i => n - i - 1)).sum := by
    simp only [rrPairs, List.length_flatMap]
    congr 1
    exact List.map_congr_left (fun a _ => by simp [Function.comp])
  have := rr_sum n
  omega

theorem rrPairs_mem (n i j : Nat) : (i, j) ∈ rrPairs n ↔ i < j ∧ j < n := by
  simp only [rrPairs, List.mem_flatMap, List.mem_map, List.mem_range]
  constructor
  · rintro ⟨a, ha, k, hk, heq⟩
    simp only [Prod.mk.injEq] at heq
    omega
  · rintro ⟨hij, hjn⟩
    refine ⟨i, by omega, j - i - 1, by omega, ?_⟩
    have hj : i + 1 + (j - i - 1) = j := by omega
    rw [hj]

theorem rrPairs_nodup (n : Nat) : (rrPairs n).Nodup := by
  rw [rrPairs, List.nodup_flatMap]
  constructor
  · intro i _
    exact (List.nodup_range _).map (fun a b h => by
      simpa using congrArg Prod.snd h)
  · have hpw := List.pairwise_lt_range n
    refine hpw.imp ?_
    intro a b hab
    intro x hxa hxb
    simp only [List.mem_map, List.mem_range] at hxa hxb
    obtain ⟨k1, _, hk1⟩ := hxa
    obtain ⟨k2, _, hk2⟩ := hxb
    rw [← hk1] at hk2
    have := congrArg Prod.fst hk2
    simp at this
    omega

/-- C7 as one statement: the round-robin generator yields `n(n-1)/2` matches,
the generated index pairs are exactly the unordered pairs `i < j < n` in seed
order, each exactly once, every match is in round 1, and the `k`-th match
carries `matchNumber = k+1` and the participants of the `k`-th pair. -/
def roundRobinSpec (ps : List Participant) : Prop :=
  let n := ps.length
  let fixtures := generateRoundRobinFixtures ps
  fixtures.length = n * (n - 1) / 2 ∧
  (∀ i j, (i, j) ∈ rrPairs n ↔ i < j ∧ j < n) ∧
  (rrPairs n).Nodup ∧
  ∀ k, k < fixtures.length → ∃ m pr, fixtures[k]? = some m ∧ (rrPairs n)[k]? = some pr ∧
    m.roundNumber = 1 ∧ m.matchNumber = k + 1 ∧
    m.participant1Id = some ((ps.getD pr.1 default).id) ∧
    m.participant2Id = some ((ps.getD pr.2 default).id)

/-- C7: for every participant list with at least two entries the round-robin
generator satisfies `roundRobinSpec`: exactly `n(n-1)/2` matches, one per
unordered pair over seed order, all in round 1, match numbers sequential in
pair-generation order. -/
theorem generateRoundRobinFixtures_correct (ps : List Participant)
    (hn : 2 ≤ ps.length) : roundRobinSpec ps := by
  refine ⟨?_, fun i j => rrPairs_mem ps.length i j, rrPairs_nodup ps.length, ?_⟩
  · simp only [generateRoundRobinFixtures, List.length_map, List.enum_length]
    exact rrPairs_length ps.length
  · intro k hk
    simp only [generateRoundRobinFixtures, List.length_map, List.enum_length] at hk
    have hk2 : k < (rrPairs ps.length).length := hk
    have h1 : (rrPairs ps.length)[k]? = some ((rrPairs ps.length)[k]) :=
      List.getElem?_eq_getElem hk2
    have hfx : (generateRoundRobinFixtures ps)[k]? = some
        { id := k
          roundNumber := 1
          matchNumber := k + 1
          stage := "main"
          status := "pending"
          participant1Id := some ((ps.getD (rrPairs ps.length)[k].1 default).id)
          participant2Id := some ((ps.getD (rrPairs ps.length)[k].2 default).id)
          nextMatchId := none } := by
      simp only [generateRoundRobinFixtures, List.getElem?_map, List.getElem?_enum, h1]
      rfl
    exact ⟨_, (rrPairs ps.length)[k], hfx, h1, rfl, rfl, rfl, rfl⟩

/-- C7 witness: a concrete three-participant tournament. -/
theorem generateRoundRobinFixtures_correct_witness :
    2 ≤ ([{ id := "a", name := "A", seed := none },
          { id := "b", name := "B", seed := none },
          { id := "c", name := "C", seed := none }] : List Participant).length ∧
    roundRobinSpec [{ id := "a", name := "A", seed := none },
          { id := "b", name := "B", seed := none },
          { id := "c", name := "C", seed := none }] :=
  ⟨by decide, generateRoundRobinFixtures_correct _ (by decide)⟩

/-- Embeds the fixture-count validation of `GenerateFixtures`
(tournament_service.go lines 438-443): `maxPossibleMatches :=
MaxMatchesPerDay * days`, and the generated list is rejected with
`ErrCapacityExceeded` exactly when it is longer than that. -/
def validateFixtures (fixtures : List MatchRec)
    (maxMatchesPerDay startHours endHours : Nat) : Except String Unit :=
  let maxPossibleMatches := maxMatchesPerDay * calculateTournamentDays startHours endHours
  if maxPossibleMatches < fixtures.length then Except.error "capacity exceeded"
  else Except.ok ()

/-- C9: the validation step fails with `CapacityExceeded` exactly when the
fixture count exceeds `maxMatchesPerDay * days`, and accepts at or below the
bound. -/
theorem validateFixtures_iff (fixtures : List MatchRec)
    (maxMatchesPerDay startHours endHours : Nat) :
    (validateFixtures fixtures maxMatchesPerDay startHours endHours = Except.ok () ↔
      fixtures.length ≤ maxMatchesPerDay * calculateTournamentDays startHours endHours) ∧
    (validateFixtures fixtures maxMatchesPerDay startHours endHours =
        Except.error "capacity exceeded" ↔
      maxMatchesPerDay * calculateTournamentDays startHours endHours < fixtures.length) := by
  by_cases hc : maxMatchesPerDay * calculateTournamentDays startHours endHours <
      fixtures.length
  · have hrw : validateFixtures fixtures maxMatchesPerDay startHours endHours =
        Except.error "capacity exceeded" := by
      simp only [validateFixtures, if_pos hc]
    rw [hrw]
    exact ⟨⟨fun h => Except.noConfusion h, fun h => absurd h (by omega)⟩,
      ⟨fun _ => hc, fun _ => rfl⟩⟩
  · have hrw : validateFixtures fixtures maxMatchesPerDay startHours endHours =
        Except.ok () := by
      simp only [validateFixtures, if_neg hc]
    rw [hrw]
    exact ⟨⟨fun _ => by omega, fun _ => rfl⟩,
      ⟨fun h => Except.noConfusion h, fun h => absurd h hc⟩⟩

/-- C3: for every power-of-two size `2^k ≥ 2` (with enough fuel for the
recursion depth `k`), `createBracketPositions` returns a permutation of
`{0, ..., size-1}`, returning `[0, 1]` for size 2 and `[0, 3, 1, 2]` for
size 4, following the recursive interleaving construction. -/
theorem createBracketPositions_perm (k fuel : Nat) (hk : 1 ≤ k) (hfuel : k ≤ fuel) :
    ∃ l, createBracketPositions fuel (2 ^ k) = some l ∧ l.Perm (List.range (2 ^ k)) ∧
      (k = 1 → l = [0, 1]) ∧ (k = 2 → l = [0, 3, 1, 2]) := by
  obtain ⟨k₀, rfl⟩ : ∃ k0, k = k0 + 1 := ⟨k - 1, by omega⟩
  refine ⟨bracketPos k₀, createBracketPositions_pow k₀ fuel (by omega),
    bracketPos_perm k₀, ?_, ?_⟩
  · intro h1
    have hz : k₀ = 0 := by omega
    subst hz
    rfl
  · intro h2
    have ho : k₀ = 1 := by omega
    subst ho
    decide

/-- C3 witness: size 4 at fuel 2. -/
theorem createBracketPositions_perm_witness :
    (1 : Nat) ≤ 2 ∧ (2 : Nat) ≤ 2 ∧
    (∃ l, createBracketPositions 2 (2 ^ 2) = some l ∧ l.Perm (List.range (2 ^ 2)) ∧
      (2 = 1 → l = [0, 1]) ∧ (2 = 2 → l = [0, 3, 1, 2])) :=
  ⟨by decide, by decide, createBracketPositions_perm 2 2 (by decide) (by decide)⟩

/-- C4 counterexample: at size 5 — not a power of two — the Go
`createBracketPositions` does not fail with any error: it terminates
normally (fuel 8 is more than its recursion depth) and hands back the
sequence `[0, 3, 1, 2, 0]`, which is not even duplicate-free. There is no
`InvalidSize` check anywhere in the function (tournament_service.go lines
613-631). -/
theorem createBracketPositions_size5_counterexample :
    createBracketPositions 8 5 = some [0, 3, 1, 2, 0] ∧
    ¬ ([0, 3, 1, 2, 0] : List Nat).Nodup := by decide

theorem createBracketPositions_zero (fuel : Nat) : createBracketPositions fuel 0 = none := by
  induction fuel with
  | zero => rfl
  | succ fuel ih => simp [createBracketPositions, ih]

theorem createBracketPositions_one (fuel : Nat) : createBracketPositions fuel 1 = none := by
  cases fuel with
  | zero => rfl
  | succ fuel => simp [createBracketPositions, createBracketPositions_zero]

theorem createBracketPositions_three (fuel : Nat) : createBracketPositions fuel 3 = none := by
  cases fuel with
  | zero => rfl
  | succ fuel => simp [createBracketPositions, createBracketPositions_one]

/-- C4 amended: `createBracketPositions` performs no size validation and
never returns an `InvalidSize` error (none exists in the repository). For
degenerate sizes 0 and 1 and for size 3 the recursion never reaches the
base case at any fuel (the Go original recurses forever), while for size 5
it terminates and silently returns `[0, 3, 1, 2, 0]`, a sequence that is
not a permutation. -/
theorem createBracketPositions_no_validation (fuel : Nat) (hf : 2 ≤ fuel) :
    createBracketPositions fuel 0 = none ∧
    createBracketPositions fuel 1 = none ∧
    createBracketPositions fuel 3 = none ∧
    createBracketPositions fuel 5 = some [0, 3, 1, 2, 0] ∧
    ¬ ([0, 3, 1, 2, 0] : List Nat).Nodup := by
  refine ⟨createBracketPositions_zero fuel, createBracketPositions_one fuel,
    createBracketPositions_three fuel, ?_, by decide⟩
  obtain ⟨m, rfl⟩ : ∃ m, fuel = m + 2 := ⟨fuel - 2, by omega⟩
  simp [createBracketPositions, buildPositions, interleavePairs]

/-- C4 witness: the amended statement at fuel 2. -/
theorem createBracketPositions_no_validation_witness :
    (2 : Nat) ≤ 2 ∧
    (createBracketPositions 2 0 = none ∧
     createBracketPositions 2 1 = none ∧
     createBracketPositions 2 3 = none ∧
     createBracketPositions 2 5 = some [0, 3, 1, 2, 0] ∧
     ¬ ([0, 3, 1, 2, 0] : List Nat).Nodup) :=
  ⟨by decide, createBracketPositions_no_validation 2 (by decide)⟩

/-- The seed map of the `manual` arm of `applySeedingMethod`
(tournament_service.go lines 482-485): a Go map built by iterating the
seeding data in order,so a later entry for the same participant overwrites
an earlier one; lookup therefore finds the last matching entry. -/
def lookupSeed (data : List SeedingData) (id : String) : Option Nat :=
  (data.reverse.find? (fun sd => sd.participantId == id)).map SeedingData.seed

/-- The comparator passed to `sort.Slice` by the `manual` arm
(tournament_service.go lines 488-502): seeded participants order by seed,
any seeded participant precedes any unseeded one, and two unseeded
participants order by name. -/
def manualLess (data : List SeedingData) (a b : Participant) : Bool :=
  match lookupSeed data a.id, lookupSeed data b.id with
  | some sa, some sb => decide (sa < sb)
  | some _, none => true
  | none, some _ => false
  | none, none => decide (a.name < b.name)

/-- The seed renumbering applied after each seeding arm (tournament_service.go
lines 505-508, 518-521, 531-534): participant at position `i` receives seed
`i + 1`. -/
def stampSeeds (l : List Participant) : List Participant :=
  l.enum.map (fun ip => { ip.2 with seed := some (ip.1 + 1) })

/-- One Go parallel assignment `participants[i], participants[j] =
participants[j], participants[i]`; both reads happen before both writes. -/
def listSwap (l : List Participant) (i j : Nat) : List Participant :=
  (l.set i (l.getD j default)).set j (l.getD i default)

/-- The Fisher-Yates loop of the `random` arm (tournament_service.go lines
512-515): `for i := len-1; i > 0; i-- { j := utils.RandomInt(i+1); swap }`,
with the random source as the oracle `r`. -/
def fyLoop (r : Nat → Nat) : List Participant → Nat → List Participant
  | l, 0 => l
  | l, i + 1 => fyLoop r (listSwap l (i + 1) (r (i + 2))) i

/-- Embeds `applySeedingMethod` (tournament_service.go lines 478-541).
Go's `sort.Slice` is an unstable comparison sort; any such sort returns a
permutation of its input that is pairwise ordered by the negated flipped
comparator, which is exactly the contract of `List.mergeSort` with
`le a b := !(less b a)`, the only properties the claims rely on. The
`skill` arm sorts by name (documented fallback). Any other method string
leaves the slice untouched. -/
def applySeedingMethod (ps : List Participant) (method : String)
    (data : List SeedingData) (r : Nat → Nat) : List Participant :=
  match method with
  | "manual" => stampSeeds (ps.mergeSort (fun a b => !(manualLess data b a)))
  | "random" => stampSeeds (fyLoop r ps (ps.length - 1))
  | "skill" => stampSeeds (ps.mergeSort (fun a b => !(decide (b.name < a.name))))
  | _ => ps

theorem listSwap_perm (l : List Participant) (i j : Nat) (hi : i < l.length)
    (hj : j < l.length) : (listSwap l i j).Perm l := by
  rw [List.perm_iff_count]
  intro b
  have hgi : l.getD i default = l[i] := List.getD_eq_getElem l default hi
  have hgj : l.getD j default = l[j] := List.getD_eq_getElem l default hj
  unfold listSwap
  rw [hgi, hgj]
  have hlen : j < (l.set i (l[j])).length := by
    rw [List.length_set]
    exact hj
  have h2 := List.count_set (l[i]) b (l.set i (l[j])) j hlen
  have h1 := List.count_set (l[j]) b l i hi
  have hsj : (l.set i (l[j]))[j] = l[j] := by
    rw [List.getElem_set]
    split <;> rfl
  rw [h2, hsj, h1]
  by_cases hbi : l[i] = b
  · have hmem : b ∈ l := hbi ▸ List.getElem_mem hi
    have hpos : 0 < List.count b l := List.count_pos_iff.mpr hmem
    by_cases hbj : l[j] = b <;> simp only [hbi, hbj, beq_self_eq_true, if_true] <;>
      [skip; rw [if_neg (by simpa using hbj)]] <;> omega
  · by_cases hbj : l[j] = b
    · simp only [hbj, beq_self_eq_true, if_true]
      rw [if_neg (by simpa using hbi)]
      omega
    · rw [if_neg (by simpa using hbi), if_neg (by simpa using hbj)]
      omega

theorem fyLoop_perm (r : Nat → Nat) (hr : ∀ m, 0 < m → r m < m) :
    ∀ i l, i < l.length → (fyLoop r l i).Perm l := by
  intro i
  induction i with
  | zero => intro l _; exact List.Perm.refl l
  | succ i ih =>
    intro l hlen
    have hj : r (i + 2) < l.length := by
      have := hr (i + 2) (by omega)
      omega
    have hswap := listSwap_perm l (i + 1) (r (i + 2)) hlen hj
    have hlen2 : i < (listSwap l (i + 1) (r (i + 2))).length := by
      simp only [listSwap, List.length_set]
      omega
    exact (ih _ hlen2).trans hswap

theorem stampSeeds_map_idname (l : List Participant) :
    (stampSeeds l).map (fun p => (p.id, p.name)) = l.map (fun p => (p.id, p.name)) := by
  unfold stampSeeds
  rw [List.map_map]
  have : ((fun p => (p.id, p.name)) ∘ fun ip : Nat × Participant =>
      { ip.2 with seed := some (ip.1 + 1) }) = (fun p => (p.id, p.name)) ∘ Prod.snd := rfl
  rw [this, ← List.map_map, List.enum_map_snd]

theorem stampSeeds_getElem (l : List Participant) (k : Nat) (pk : Participant)
    (h : (stampSeeds l)[k]? = some pk) :
    ∃ q, l[k]? = some q ∧ pk = { q with seed := some (k + 1) } := by
  unfold stampSeeds at h
  rw [List.getElem?_map, List.getElem?_enum] at h
  cases hq : l[k]? with
  | none => rw [hq] at h; exact Option.noConfusion h
  | some q =>
    rw [hq] at h
    simp only [Option.map_some] at h
    exact ⟨q, rfl, (Option.some.injEq .. ▸ h).symm⟩

theorem manualLe_trans (data : List SeedingData) (a b c : Participant)
    (hab : (!(manualLess data b a)) = true) (hbc : (!(manualLess data c b)) = true) :
    (!(manualLess data c a)) = true := by
  simp only [Bool.not_eq_true'] at hab hbc ⊢
  unfold manualLess at hab hbc ⊢
  cases ha : lookupSeed data a.id <;> cases hb : lookupSeed data b.id <;>
    cases hc : lookupSeed data c.id <;>
    simp only [ha, hb, hc, decide_eq_false_iff_not] at hab hbc ⊢ <;>
    first
    | rfl
    | omega
    | exact hab
    | exact hbc
    | exact Bool.noConfusion hab
    | exact Bool.noConfusion hbc
    | exact fun h => hab (lt_of_le_of_lt (not_lt.mp hbc) h)

theorem manualLe_total (data : List SeedingData) (a b : Participant) :
    ((!(manualLess data b a)) || (!(manualLess data a b))) = true := by
  unfold manualLess
  cases ha : lookupSeed data a.id <;> cases hb : lookupSeed data b.id <;>
    simp only [ha, hb, Bool.or_eq_true, Bool.not_eq_true', decide_eq_false_iff_not] <;>
    first
    | omega
    | exact (lt_or_le a.name b.name).elim (fun h => Or.inl (lt_asymm h))
        (fun h => Or.inr (not_lt.mpr h))
    | simp

theorem applySeedingMethod_manual (ps : List Participant) (data : List SeedingData)
    (r : Nat → Nat) : applySeedingMethod ps "manual" data r =
      stampSeeds (ps.mergeSort (fun a b => !(manualLess data b a))) := rfl

theorem applySeedingMethod_random (ps : List Participant) (data : List SeedingData)
    (r : Nat → Nat) : applySeedingMethod ps "random" data r =
      stampSeeds (fyLoop r ps (ps.length - 1)) := rfl

/-- C8 as one statement. Random: the output is a permutation of the input
participants (projected to identity and name; the seed field is rewritten by
design). Manual: whenever a later output participant has an explicit seed in
the manual data, every earlier one also has one and with a smaller-or-equal
seed — equivalently, explicitly seeded participants appear in ascending seed
order before all unseeded ones — and output seeds are renumbered `1..n` in
order. -/
def seedingSpec (ps : List Participant) (r : Nat → Nat) (data : List SeedingData) : Prop :=
  ((applySeedingMethod ps "random" data r).map (fun p => (p.id, p.name))).Perm
    (ps.map (fun p => (p.id, p.name))) ∧
  (∀ (i j : Nat) (pi pj : Participant), i < j →
    (applySeedingMethod ps "manual" data r)[i]? = some pi →
    (applySeedingMethod ps "manual" data r)[j]? = some pj →
    ∀ sj, lookupSeed data pj.id = some sj →
      ∃ si, lookupSeed data pi.id = some si ∧ si ≤ sj) ∧
  (∀ (k : Nat) (pk : Participant),
    (applySeedingMethod ps "manual" data r)[k]? = some pk → pk.seed = some (k + 1))

/-- C8: the seeding assigner with method `random` returns a permutation of
the input set, and with method `manual` places explicitly seeded participants
in ascending manual-seed order before all unseeded ones, renumbering seeds
`1..n` afterwards. -/
theorem applySeedingMethod_correct (ps : List Participant) (r : Nat → Nat)
    (data : List SeedingData) (hr : ∀ m, 0 < m → r m < m) : seedingSpec ps r data := by
  refine ⟨?_, ?_, ?_⟩
  · rw [applySeedingMethod_random, stampSeeds_map_idname]
    refine List.Perm.map _ ?_
    cases hl : ps.length with
    | zero =>
      have hnil : ps = [] := List.eq_nil_of_length_eq_zero hl
      subst hnil
      exact List.Perm.refl _
    | succ m =>
      simp only [Nat.add_sub_cancel]
      exact fyLoop_perm r hr m ps (by omega)
  · intro i j pi pj hij hpi hpj sj hsj
    rw [applySeedingMethod_manual] at hpi hpj
    obtain ⟨qi, hqi, hpi_eq⟩ := stampSeeds_getElem _ i pi hpi
    obtain ⟨qj, hqj, hpj_eq⟩ := stampSeeds_getElem _ j pj hpj
    obtain ⟨hilen, hqi_eq⟩ := List.getElem?_eq_some_iff.mp hqi
    obtain ⟨hjlen, hqj_eq⟩ := List.getElem?_eq_some_iff.mp hqj
    have hpw := @List.sorted_mergeSort Participant (fun a b => !(manualLess data b a))
      (manualLe_trans data) (manualLe_total data) ps
    have hle := (List.pairwise_iff_getElem.mp hpw) i j hilen hjlen hij
    rw [hqi_eq, hqj_eq] at hle
    have hid_i : pi.id = qi.id := by rw [hpi_eq]
    have hid_j : pj.id = qj.id := by rw [hpj_eq]
    rw [hid_j] at hsj
    have hless : manualLess data qj qi = false := by
      simpa using hle
    unfold manualLess at hless
    rw [hsj] at hless
    cases hqi_lookup : lookupSeed data qi.id with
    | none =>
      rw [hqi_lookup] at hless
      exact Bool.noConfusion hless
    | some si =>
      rw [hqi_lookup] at hless
      simp only [decide_eq_false_iff_not] at hless
      exact ⟨si, by rw [hid_i]; exact hqi_lookup, by omega⟩
  · intro k pk hpk
    rw [applySeedingMethod_manual] at hpk
    obtain ⟨q, _, hq⟩ := stampSeeds_getElem _ k pk hpk
    rw [hq]

/-- C8 witness: two participants, the zero random oracle, one manual seed. -/
theorem applySeedingMethod_correct_witness :
    (∀ m, 0 < m → (fun _ => 0 : Nat → Nat) m < m) ∧
    seedingSpec [{ id := "a", name := "A", seed := none },
        { id := "b", name := "B", seed := none }] (fun _ => 0)
      [{ participantId := "b", seed := 1 }] :=
  ⟨fun m hm => hm, applySeedingMethod_correct _ _ _ (fun m hm => hm)⟩

/-- The call `s.createBracketPositions(targetSize)` inside
`generateSingleEliminationFixtures` (tournament_service.go line 560). The
fuel `targetSize` covers the recursion depth for every power-of-two size
(depth `log2 size`, and `log2 size < size`), so the embedded call returns
exactly what the Go call computes there. -/
def seBracketPositions (targetSize : Nat) : List Nat :=
  (createBracketPositions targetSize targetSize).getD []

/-- The key under which participant `p` (at slice position `i`) is stored in
the `participantPositions` map (tournament_service.go lines 563-570):
`*p.Seed - 1` when seeded, the slice index `i` otherwise. -/
def posKey : Nat × Participant → Nat
  | (i, p) =>
    match p.seed with
    | some s => s - 1
    | none => i

/-- The `participantPositions` Go map (tournament_service.go lines 563-570),
built by one pass over the participants, later entries overwriting earlier
ones with the same key. -/
def participantPositions (ps : List Participant) : Nat → Option Participant :=
  ps.enum.foldl
    (fun acc ip => fun k => if k = posKey ip then some ip.2 else acc k)
    (fun _ => none)

/-- Participant lookup for one bracket slot of a first-round match
(tournament_service.go lines 593-598): the slot is filled only when the map
has an entry for the position and the position is below `n`. -/
def seSlot (ps : List Participant) (n pos : Nat) : Option String :=
  match participantPositions ps pos with
  | some p => if pos < n then some p.id else none
  | none => none

/-- The (round, index-in-round) pairs of the nested generation loops of
`generateSingleEliminationFixtures` (tournament_service.go lines 573-604):
for each round `1..rounds`, `targetSize / 2^round` matches, in this order. -/
def seRaw (rounds targetSize : Nat) : List (Nat × Nat) :=
  (List.range rounds).flatMap (fun r0 =>
    (List.range (targetSize / 2 ^ (r0 + 1))).map (fun i => (r0 + 1, i)))

/-- The fixture list of `generateSingleEliminationFixtures` before
progression linking (tournament_service.go lines 544-604): match ids are the
creation indices (embedded UUIDs), `matchNumber` counts from 1 in creation
order, and only round-1 matches receive participants, read from the bracket
positions `2*i` and `2*i+1`. -/
def seUnlinked (ps : List Participant) : List MatchRec :=
  let n := ps.length
  let rounds := ceilLog2 n
  let targetSize := 2 ^ rounds
  let bps := seBracketPositions targetSize
  (seRaw rounds targetSize).enum.map (fun jp =>
    { id := jp.1
      roundNumber := jp.2.1
      matchNumber := jp.1 + 1
      stage := "main"
      status := "pending"
      participant1Id := if jp.2.1 = 1 then seSlot ps n (bps.getD (2 * jp.2.2) 0) else none
      participant2Id := if jp.2.1 = 1 then seSlot ps n (bps.getD (2 * jp.2.2 + 1) 0) else none
      nextMatchId := none })

/-- The effect of `linkBracketProgression` (tournament_service.go lines
634-657) on the match at list position `j`. The Go code groups matches by
round in list order and walks each round in index steps of two, so the match
whose index within its round group is `c` points at entry `c / 2` of the
next round group when that entry exists (both the even element `i` and the
odd element `i+1` of one Go iteration have `c / 2 = i / 2`); rounds outside
`1 <= r < rounds` are never visited by the Go loop. -/
def linkAt (ms : List MatchRec) (rounds : Nat) (j : Nat) (m : MatchRec) : MatchRec :=
  if 1 ≤ m.roundNumber ∧ m.roundNumber < rounds then
    match (ms.filter (fun x => x.roundNumber == m.roundNumber + 1))[((ms.take j).countP
        (fun x => x.roundNumber == m.roundNumber)) / 2]? with
    | some t => { m with nextMatchId := some t.id }
    | none => m
  else m

/-- Embeds `linkBracketProgression` (tournament_service.go lines 634-657) as
a map over the positioned matches. -/
def linkBracketProgression (ms : List MatchRec) (rounds : Nat) : List MatchRec :=
  ms.enum.map (fun jm => linkAt ms rounds jm.1 jm.2)

/-- Embeds `generateSingleEliminationFixtures` (tournament_service.go lines
544-610): generation followed by progression linking. -/
def generateSingleEliminationFixtures (ps : List Participant) : List MatchRec :=
  linkBracketProgression (seUnlinked ps) (ceilLog2 ps.length)

theorem linkBracketProgression_length (ms : List MatchRec) (rounds : Nat) :
    (linkBracketProgression ms rounds).length = ms.length := by
  simp [linkBracketProgression, List.enum_length]

theorem linkBracketProgression_getElem? (ms : List MatchRec) (rounds j : Nat) :
    (linkBracketProgression ms rounds)[j]? = Option.map (linkAt ms rounds j) ms[j]? := by
  simp only [linkBracketProgression, List.getElem?_map, List.getElem?_enum]
  cases ms[j]? <;> rfl

theorem linkAt_fields (ms : List MatchRec) (rounds j : Nat) (m : MatchRec) :
    (linkAt ms rounds j m).id = m.id ∧
    (linkAt ms rounds j m).roundNumber = m.roundNumber ∧
    (linkAt ms rounds j m).matchNumber = m.matchNumber ∧
    (linkAt ms rounds j m).participant1Id = m.participant1Id ∧
    (linkAt ms rounds j m).participant2Id = m.participant2Id := by
  unfold linkAt
  split
  · cases hm : (ms.filter (fun x => x.roundNumber == m.roundNumber + 1))[((ms.take j).countP
        (fun x => x.roundNumber == m.roundNumber)) / 2]? with
    | none => simp [hm]
    | some t => simp [hm]
  · simp

theorem linkBracketProgression_mem (ms : List MatchRec) (rounds : Nat) (m : MatchRec)
    (hm : m ∈ linkBracketProgression ms rounds) :
    ∃ j, ∃ h : j < ms.length, m = linkAt ms rounds j ms[j] := by
  obtain ⟨j, hj, hget⟩ := List.mem_iff_getElem.mp hm
  rw [linkBracketProgression_length] at hj
  refine ⟨j, hj, ?_⟩
  have := linkBracketProgression_getElem? ms rounds j
  rw [List.getElem?_eq_getElem (by rwa [linkBracketProgression_length]),
    List.getElem?_eq_getElem hj] at this
  simp only [Option.map_some'] at this
  rw [← hget]
  exact Option.some.injEq .. ▸ this

theorem mem_linkBracketProgression (ms : List MatchRec) (rounds : Nat) (m0 : MatchRec)
    (hm : m0 ∈ ms) :
    ∃ m, m ∈ linkBracketProgression ms rounds ∧ m.id = m0.id ∧
      m.roundNumber = m0.roundNumber ∧ m.matchNumber = m0.matchNumber ∧
      m.participant1Id = m0.participant1Id ∧ m.participant2Id = m0.participant2Id := by
  obtain ⟨j, hj, hget⟩ := List.mem_iff_getElem.mp hm
  refine ⟨linkAt ms rounds j m0, ?_, ?_⟩
  · have h1 := linkBracketProgression_getElem? ms rounds j
    rw [List.getElem?_eq_getElem hj] at h1
    simp only [Option.map_some', hget] at h1
    obtain ⟨hlen2, heq2⟩ := List.getElem?_eq_some_iff.mp h1
    exact heq2 ▸ List.getElem_mem hlen2
  · have := linkAt_fields ms rounds j m0
    tauto

theorem linkAt_next_some (ms : List MatchRec) (rounds j : Nat) (m : MatchRec) (t : Nat)
    (hnone : m.nextMatchId = none) (h : (linkAt ms rounds j m).nextMatchId = some t) :
    ∃ tgt, 1 ≤ m.roundNumber ∧ m.roundNumber < rounds ∧
      (ms.filter (fun x => x.roundNumber == m.roundNumber + 1))[((ms.take j).countP
        (fun x => x.roundNumber == m.roundNumber)) / 2]? = some tgt ∧ t = tgt.id := by
  unfold linkAt at h
  split at h
  · next hcond =>
    cases hm : (ms.filter (fun x => x.roundNumber == m.roundNumber + 1))[((ms.take j).countP
        (fun x => x.roundNumber == m.roundNumber)) / 2]? with
    | none =>
      rw [hm] at h
      have h2 : m.nextMatchId = some t := h
      rw [hnone] at h2
      exact Option.noConfusion h2
    | some tgt =>
      rw [hm] at h
      have h2 : some tgt.id = some t := h
      exact ⟨tgt, hcond.1, hcond.2, rfl, (Option.some.injEq .. ▸ h2).symm⟩
  · rw [hnone] at h
    exact Option.noConfusion h

theorem seUnlinked_length (ps : List Participant) :
    (seUnlinked ps).length = (seRaw (ceilLog2 ps.length) (2 ^ ceilLog2 ps.length)).length := by
  simp [seUnlinked, List.enum_length]

theorem seUnlinked_getElem? (ps : List Participant) (j : Nat) (rp : Nat × Nat)
    (h : (seRaw (ceilLog2 ps.length) (2 ^ ceilLog2 ps.length))[j]? = some rp) :
    (seUnlinked ps)[j]? = some
      { id := j
        roundNumber := rp.1
        matchNumber := j + 1
        stage := "main"
        status := "pending"
        participant1Id := if rp.1 = 1 then
          seSlot ps ps.length
            ((seBracketPositions (2 ^ ceilLog2 ps.length)).getD (2 * rp.2) 0) else none
        participant2Id := if rp.1 = 1 then
          seSlot ps ps.length
            ((seBracketPositions (2 ^ ceilLog2 ps.length)).getD (2 * rp.2 + 1) 0) else none
        nextMatchId := none } := by
  simp only [seUnlinked, List.getElem?_map, List.getElem?_enum, h, Option.map_some']

theorem seUnlinked_nextNone (ps : List Participant) (m : MatchRec)
    (hm : m ∈ seUnlinked ps) : m.nextMatchId = none := by
  simp only [seUnlinked, List.mem_map] at hm
  obtain ⟨jp, _, hjp⟩ := hm
  rw [← hjp]

theorem seUnlinked_id (ps : List Participant) (j : Nat) (h : j < (seUnlinked ps).length) :
    (seUnlinked ps)[j].id = j := by
  have hlen : j < (seRaw (ceilLog2 ps.length) (2 ^ ceilLog2 ps.length)).length := by
    rw [← seUnlinked_length]
    exact h
  have hr := List.getElem?_eq_getElem hlen
  have hsome := seUnlinked_getElem? ps j _ hr
  rw [List.getElem?_eq_getElem h] at hsome
  rw [Option.some_inj.mp hsome]

theorem seRaw_length_eq (R T : Nat) :
    (seRaw R T).length = ((List.range R).map (fun r0 => T / 2 ^ (r0 + 1))).sum := by
  simp only [seRaw, List.length_flatMap]
  congr 1
  exact List.map_congr_left (fun a _ => by simp [Function.comp])

theorem sum_pow_halves (R : Nat) :
    ((List.range R).map (fun r0 => 2 ^ R / 2 ^ (r0 + 1))).sum = 2 ^ R - 1 := by
  induction R with
  | zero => rfl
  | succ R ih =>
    rw [List.range_succ_eq_map]
    simp only [List.map_cons, List.map_map, List.sum_cons]
    have hhead : 2 ^ (R + 1) / 2 ^ (0 + 1) = 2 ^ R := by
      have he : (2 : Nat) ^ (0 + 1) = 2 := by norm_num
      rw [he, pow_succ]
      exact Nat.mul_div_cancel _ (by norm_num)
    have hmap : (List.range R).map ((fun r0 => 2 ^ (R + 1) / 2 ^ (r0 + 1)) ∘ Nat.succ) =
        (List.range R).map (fun r0 => 2 ^ R / 2 ^ (r0 + 1)) :=
      List.map_congr_left (fun a _ => by
        simp only [Function.comp_apply]
        have h1 : 2 ^ (R + 1) = 2 ^ R * 2 := pow_succ 2 R
        have h2 : 2 ^ (a + 1 + 1) = 2 ^ (a + 1) * 2 := pow_succ 2 (a + 1)
        rw [show a + 1 + 1 = a + 1 + 1 from rfl] at h2
        rw [h1]
        have : (2 : Nat) ^ (Nat.succ a + 1) = 2 ^ (a + 1) * 2 := h2
        rw [this]
        exact Nat.mul_div_mul_right _ _ (by norm_num))
    rw [hhead, hmap, ih]
    have hpos : 1 ≤ 2 ^ R := Nat.one_le_two_pow
    have hp : 2 ^ (R + 1) = 2 ^ R * 2 := pow_succ 2 R
    omega

theorem seRaw_mem_round (R T r i : Nat) (h : (r, i) ∈ seRaw R T) :
    1 ≤ r ∧ r ≤ R ∧ i < T / 2 ^ r := by
  simp only [seRaw, List.mem_flatMap, List.mem_map, List.mem_range] at h
  obtain ⟨r0, hr0, k, hk, heq⟩ := h
  simp only [Prod.mk.injEq] at heq
  obtain ⟨h1, h2⟩ := heq
  subst h1
  subst h2
  exact ⟨by omega, by omega, hk⟩

theorem seRaw_mem_zero (R T r : Nat) (h1 : 1 ≤ r) (h2 : r ≤ R) (hT : 0 < T / 2 ^ r) :
    (r, 0) ∈ seRaw R T := by
  simp only [seRaw, List.mem_flatMap, List.mem_map, List.mem_range]
  refine ⟨r - 1, by omega, 0, ?_, ?_⟩
  · rw [show r - 1 + 1 = r by omega]
    exact hT
  · rw [show r - 1 + 1 = r by omega]

/-- C1 (amended) as one statement: the single-elimination generator returns
`2 ^ R - 1` matches where `R = ceilLog2 n = ⌈log2 n⌉` (this equals `n - 1`
exactly when `n` is a power of two), and the round numbers appearing in the
result are exactly `{1, ..., R}`. -/
def seCountSpec (ps : List Participant) : Prop :=
  (generateSingleEliminationFixtures ps).length = 2 ^ ceilLog2 ps.length - 1 ∧
  ceilLog2 ps.length = Nat.clog 2 ps.length ∧
  (∀ m ∈ generateSingleEliminationFixtures ps,
    1 ≤ m.roundNumber ∧ m.roundNumber ≤ ceilLog2 ps.length) ∧
  (∀ r, 1 ≤ r → r ≤ ceilLog2 ps.length →
    ∃ m ∈ generateSingleEliminationFixtures ps, m.roundNumber = r)

/-- C1 amended: for every participant list with `n ≥ 2` the generator emits
a full bracket of `2 ^ ⌈log2 n⌉ - 1` matches (not `n - 1`: bye slots yield
stub matches), with round numbers exactly `{1, ..., ⌈log2 n⌉}`. -/
theorem generateSingleEliminationFixtures_count (ps : List Participant)
    (h2 : 2 ≤ ps.length) : seCountSpec ps := by
  refine ⟨?_, ceilLog2_eq_clog ps.length, ?_, ?_⟩
  · rw [generateSingleEliminationFixtures, linkBracketProgression_length,
      seUnlinked_length, seRaw_length_eq, sum_pow_halves]
  · intro m hm
    obtain ⟨j, hj, hlink⟩ := linkBracketProgression_mem _ _ m hm
    have hfields := linkAt_fields (seUnlinked ps) (ceilLog2 ps.length) j ((seUnlinked ps)[j])
    have hround : m.roundNumber = (seUnlinked ps)[j].roundNumber := by
      rw [hlink]
      exact hfields.2.1
    have hlenraw : j < (seRaw (ceilLog2 ps.length) (2 ^ ceilLog2 ps.length)).length := by
      rw [← seUnlinked_length]
      exact hj
    have hr := List.getElem?_eq_getElem hlenraw
    have hget := seUnlinked_getElem? ps j _ hr
    rw [List.getElem?_eq_getElem hj] at hget
    have hru : (seUnlinked ps)[j].roundNumber =
        (seRaw (ceilLog2 ps.length) (2 ^ ceilLog2 ps.length))[j].1 := by
      rw [Option.some_inj.mp hget]
    have hmem : ((seRaw (ceilLog2 ps.length) (2 ^ ceilLog2 ps.length))[j].1,
        (seRaw (ceilLog2 ps.length) (2 ^ ceilLog2 ps.length))[j].2) ∈
        seRaw (ceilLog2 ps.length) (2 ^ ceilLog2 ps.length) := by
      rw [Prod.mk.eta]
      exact List.getElem_mem hlenraw
    have hb := seRaw_mem_round _ _ _ _ hmem
    rw [hround, hru]
    exact ⟨hb.1, hb.2.1⟩
  · intro r hr1 hr2
    have hdiv : 0 < 2 ^ ceilLog2 ps.length / 2 ^ r :=
      Nat.div_pos (Nat.pow_le_pow_right (by norm_num) hr2) (by positivity)
    have hmem := seRaw_mem_zero (ceilLog2 ps.length) (2 ^ ceilLog2 ps.length) r hr1 hr2 hdiv
    obtain ⟨j, hjlen, hget⟩ := List.mem_iff_getElem.mp hmem
    have hr2get : (seRaw (ceilLog2 ps.length) (2 ^ ceilLog2 ps.length))[j]? = some (r, 0) := by
      rw [List.getElem?_eq_getElem hjlen, hget]
    have hums := seUnlinked_getElem? ps j _ hr2get
    obtain ⟨hlen2, heq2⟩ := List.getElem?_eq_some_iff.mp hums
    have hmemums : (seUnlinked ps)[j] ∈ seUnlinked ps := List.getElem_mem hlen2
    rw [heq2] at hmemums
    obtain ⟨m, hmL, _, hmr, _⟩ := mem_linkBracketProgression _ (ceilLog2 ps.length) _ hmemums
    exact ⟨m, hmL, by rw [hmr]⟩

/-- C1 witness: four participants (a power of two), where the match count
equals both `2^2 - 1` and `n - 1`. -/
theorem generateSingleEliminationFixtures_count_witness :
    2 ≤ ([{ id := "a", name := "A", seed := some 1 },
          { id := "b", name := "B", seed := some 2 },
          { id := "c", name := "C", seed := some 3 },
          { id := "d", name := "D", seed := some 4 }] : List Participant).length ∧
    seCountSpec [{ id := "a", name := "A", seed := some 1 },
          { id := "b", name := "B", seed := some 2 },
          { id := "c", name := "C", seed := some 3 },
          { id := "d", name := "D", seed := some 4 }] :=
  ⟨by decide, generateSingleEliminationFixtures_count _ (by decide)⟩

/-- C1 counterexample: with three participants the generator returns 3
matches (a full 4-slot bracket minus nothing: rounds of 2 and 1 matches),
not `n - 1 = 2` as the claim states. -/
theorem generateSingleEliminationFixtures_count_counterexample :
    (generateSingleEliminationFixtures
        [{ id := "a", name := "A", seed := some 1 },
         { id := "b", name := "B", seed := some 2 },
         { id := "c", name := "C", seed := some 3 }]).length = 3 ∧
    ([{ id := "a", name := "A", seed := some 1 },
      { id := "b", name := "B", seed := some 2 },
      { id := "c", name := "C", seed := some 3 }] : List Participant).length - 1 = 2 := by
  constructor
  · rfl
  · rfl

theorem linkBracketProgression_get (ms : List MatchRec) (rounds j : Nat) (hj : j < ms.length)
    (hjL : j < (linkBracketProgression ms rounds).length) :
    (linkBracketProgression ms rounds).get ⟨j, hjL⟩ =
      linkAt ms rounds j (ms.get ⟨j, hj⟩) := by
  have h := linkBracketProgression_getElem? ms rounds j
  rw [List.getElem?_eq_getElem hj] at h
  simp only [Option.map_some'] at h
  rw [List.getElem?_eq_getElem hjL] at h
  exact Option.some_inj.mp h

theorem seUnlinked_id_inj (ps : List Participant) (x y : MatchRec)
    (hx : x ∈ seUnlinked ps) (hy : y ∈ seUnlinked ps) (hid : x.id = y.id) : x = y := by
  obtain ⟨jx, hjx, hxe⟩ := List.mem_iff_getElem.mp hx
  obtain ⟨jy, hjy, hye⟩ := List.mem_iff_getElem.mp hy
  have h1 : x.id = jx := by
    rw [← hxe]
    exact seUnlinked_id ps jx hjx
  have h2 : y.id = jy := by
    rw [← hye]
    exact seUnlinked_id ps jy hjy
  have : jx = jy := by omega
  subst this
  rw [← hxe, ← hye]

theorem seUnlinked_nodup (ps : List Participant) : (seUnlinked ps).Nodup := by
  rw [List.nodup_iff_injective_get]
  intro a b hab
  have ha := seUnlinked_id ps a.val a.isLt
  have hb := seUnlinked_id ps b.val b.isLt
  have : a.val = b.val := by
    rw [← ha, ← hb]
    exact congrArg MatchRec.id hab
  exact Fin.ext this

theorem countP_three_exists {α : Type} (p : α → Bool) (l : List α) (h : 3 ≤ l.countP p) :
    ∃ j1 j2 j3, j1 < j2 ∧ j2 < j3 ∧
      ∃ (h1 : j1 < l.length) (h2 : j2 < l.length) (h3 : j3 < l.length),
        p (l.get ⟨j1, h1⟩) ∧ p (l.get ⟨j2, h2⟩) ∧ p (l.get ⟨j3, h3⟩) := by
  rw [List.countP_eq_length_filter] at h
  have hsub : (l.filter p).Sublist l := List.filter_sublist l
  obtain ⟨f, hf⟩ := List.sublist_iff_exists_fin_orderEmbedding_get_eq.mp hsub
  have h0 : (0 : Nat) < (l.filter p).length := by omega
  have h1 : (1 : Nat) < (l.filter p).length := by omega
  have h2 : (2 : Nat) < (l.filter p).length := by omega
  have hm01 : (⟨0, h0⟩ : Fin (l.filter p).length) < ⟨1, h1⟩ := by
    rw [Fin.mk_lt_mk]
    omega
  have hm12 : (⟨1, h1⟩ : Fin (l.filter p).length) < ⟨2, h2⟩ := by
    rw [Fin.mk_lt_mk]
    omega
  have hp0 : p ((l.filter p).get ⟨0, h0⟩) = true :=
    List.of_mem_filter (List.get_mem (l.filter p) 0 h0)
  have hp1 : p ((l.filter p).get ⟨1, h1⟩) = true :=
    List.of_mem_filter (List.get_mem (l.filter p) 1 h1)
  have hp2 : p ((l.filter p).get ⟨2, h2⟩) = true :=
    List.of_mem_filter (List.get_mem (l.filter p) 2 h2)
  rw [hf ⟨0, h0⟩] at hp0
  rw [hf ⟨1, h1⟩] at hp1
  rw [hf ⟨2, h2⟩] at hp2
  refine ⟨(f ⟨0, h0⟩).val, (f ⟨1, h1⟩).val, (f ⟨2, h2⟩).val, f.strictMono hm01,
    f.strictMono hm12, (f ⟨0, h0⟩).isLt, (f ⟨1, h1⟩).isLt, (f ⟨2, h2⟩).isLt, ?_, ?_, ?_⟩
  · exact hp0
  · exact hp1
  · exact hp2

theorem countP_take_lt (q : MatchRec → Bool) (ms : List MatchRec) (j jp : Nat)
    (hjj : j < jp) (hjple : jp ≤ ms.length) (hj : j < ms.length) (hq : q ms[j]) :
    (ms.take j).countP q < (ms.take jp).countP q := by
  have hidx : (j + 1) + (jp - (j + 1)) = jp := by omega
  have hsplit : ms.take jp = ms.take (j + 1) ++ (ms.drop (j + 1)).take (jp - (j + 1)) := by
    conv_lhs => rw [← hidx]
    rw [List.take_add]
  rw [hsplit, List.countP_append, List.take_succ, List.countP_append]
  rw [List.getElem?_eq_getElem hj]
  simp only [Option.toList_some, List.countP_cons, List.countP_nil, hq, if_true]
  omega

/-- C6 as one statement over the generated fixtures: (1) a set `next_match_id`
always references a match of the immediately following round; (2) match ids
identify matches uniquely, so two matches sharing a `next_match_id` feed the
same parent match; (3) no id is referenced by more than two matches. -/
def seLinkSpec (ps : List Participant) : Prop :=
  (∀ m ∈ generateSingleEliminationFixtures ps, ∀ t, m.nextMatchId = some t →
    ∃ mp, mp ∈ generateSingleEliminationFixtures ps ∧ mp.id = t ∧
      mp.roundNumber = m.roundNumber + 1) ∧
  (∀ m1 ∈ generateSingleEliminationFixtures ps, ∀ m2 ∈ generateSingleEliminationFixtures ps,
    m1.id = m2.id → m1 = m2) ∧
  (∀ t : Nat, (generateSingleEliminationFixtures ps).countP
    (fun m => m.nextMatchId == some t) ≤ 2)

/-- C6: in the linked single-elimination fixture list, every set
`next_match_id` points into the strictly next round, ids determine matches,
and every match is the target of at most two progression links. -/
theorem generateSingleEliminationFixtures_links (ps : List Participant)
    (h2 : 2 ≤ ps.length) : seLinkSpec ps := by
  refine ⟨?_, ?_, ?_⟩
  · intro m hm t ht
    obtain ⟨j, hj, hlink⟩ :=
      linkBracketProgression_mem (seUnlinked ps) (ceilLog2 ps.length) m hm
    have hnone : (seUnlinked ps)[j].nextMatchId = none :=
      seUnlinked_nextNone ps _ (List.getElem_mem hj)
    have hnext : (linkAt (seUnlinked ps) (ceilLog2 ps.length) j
        ((seUnlinked ps)[j])).nextMatchId = some t := by
      rw [← hlink]
      exact ht
    obtain ⟨tgt, h1r, hrR, hfil, hti⟩ := linkAt_next_some _ _ _ _ _ hnone hnext
    obtain ⟨hfl, hfeq⟩ := List.getElem?_eq_some_iff.mp hfil
    have htmem : tgt ∈ (seUnlinked ps).filter
        (fun x => x.roundNumber == (seUnlinked ps)[j].roundNumber + 1) := by
      rw [← hfeq]
      exact List.getElem_mem hfl
    have htin : tgt ∈ seUnlinked ps := List.mem_of_mem_filter htmem
    have hpt := List.of_mem_filter htmem
    have htround : tgt.roundNumber = (seUnlinked ps)[j].roundNumber + 1 := by
      simpa using hpt
    obtain ⟨mp, hmpL, hmpid, hmpround, _⟩ :=
      mem_linkBracketProgression (seUnlinked ps) (ceilLog2 ps.length) tgt htin
    refine ⟨mp, hmpL, by rw [hmpid, ← hti], ?_⟩
    have hfields := linkAt_fields (seUnlinked ps) (ceilLog2 ps.length) j ((seUnlinked ps)[j])
    rw [hmpround, htround, hlink, hfields.2.1]
  · intro m1 hm1 m2 hm2 hid
    obtain ⟨j1, hj1, hl1⟩ := linkBracketProgression_mem _ _ m1 hm1
    obtain ⟨j2, hj2, hl2⟩ := linkBracketProgression_mem _ _ m2 hm2
    have hid1 : m1.id = j1 := by
      rw [hl1, (linkAt_fields _ _ _ _).1, seUnlinked_id ps j1 hj1]
    have hid2 : m2.id = j2 := by
      rw [hl2, (linkAt_fields _ _ _ _).1, seUnlinked_id ps j2 hj2]
    have hjj : j1 = j2 := by omega
    subst hjj
    rw [hl1, hl2]
  · intro t
    by_contra hgt
    have h3 : 3 ≤ (generateSingleEliminationFixtures ps).countP
        (fun m => m.nextMatchId == some t) := by omega
    obtain ⟨j1, j2, j3, h12, h23, hb1, hb2, hb3, hp1, hp2, hp3⟩ := countP_three_exists _ _ h3
    have hlenL : (generateSingleEliminationFixtures ps).length = (seUnlinked ps).length :=
      linkBracketProgression_length _ _
    have key : ∀ jx (hbx : jx < (generateSingleEliminationFixtures ps).length),
        ((generateSingleEliminationFixtures ps).get ⟨jx, hbx⟩).nextMatchId = some t →
        ∃ (hux : jx < (seUnlinked ps).length) (tgt : MatchRec),
          tgt ∈ seUnlinked ps ∧ t = tgt.id ∧
          tgt.roundNumber = ((seUnlinked ps).get ⟨jx, hux⟩).roundNumber + 1 ∧
          ((seUnlinked ps).filter (fun x => x.roundNumber ==
              ((seUnlinked ps).get ⟨jx, hux⟩).roundNumber + 1))[(((seUnlinked ps).take
            jx).countP (fun x => x.roundNumber ==
              ((seUnlinked ps).get ⟨jx, hux⟩).roundNumber)) / 2]? = some tgt := by
      intro jx hbx hnx
      have hux : jx < (seUnlinked ps).length := by rwa [hlenL] at hbx
      have hnx2 : (linkAt (seUnlinked ps) (ceilLog2 ps.length) jx
          ((seUnlinked ps).get ⟨jx, hux⟩)).nextMatchId = some t := by
        rw [← linkBracketProgression_get (seUnlinked ps) (ceilLog2 ps.length) jx hux hbx]
        exact hnx
      have hnone : ((seUnlinked ps).get ⟨jx, hux⟩).nextMatchId = none :=
        seUnlinked_nextNone ps _ (List.get_mem _ _ _)
      obtain ⟨tgt, ha, hb, hc, hd⟩ := linkAt_next_some _ _ _ _ _ hnone hnx2
      obtain ⟨hfl, hfeq⟩ := List.getElem?_eq_some_iff.mp hc
      have htmem : tgt ∈ (seUnlinked ps).filter (fun x => x.roundNumber ==
          ((seUnlinked ps).get ⟨jx, hux⟩).roundNumber + 1) := by
        rw [← hfeq]
        exact List.getElem_mem hfl
      have hpt := List.of_mem_filter htmem
      exact ⟨hux, tgt, List.mem_of_mem_filter htmem, hd, by simpa using hpt, hc⟩
    obtain ⟨hu1, tgt1, hin1, hid1, hr1, hf1⟩ := key j1 hb1 (beq_iff_eq.mp hp1)
    obtain ⟨hu2, tgt2, hin2, hid2, hr2, hf2⟩ := key j2 hb2 (beq_iff_eq.mp hp2)
    obtain ⟨hu3, tgt3, hin3, hid3, hr3, hf3⟩ := key j3 hb3 (beq_iff_eq.mp hp3)
    have e12 : tgt1 = tgt2 := seUnlinked_id_inj ps _ _ hin1 hin2 (by rw [← hid1, ← hid2])
    have e13 : tgt1 = tgt3 := seUnlinked_id_inj ps _ _ hin1 hin3 (by rw [← hid1, ← hid3])
    have hrr2 : ((seUnlinked ps).get ⟨j2, hu2⟩).roundNumber =
        ((seUnlinked ps).get ⟨j1, hu1⟩).roundNumber := by
      rw [← e12] at hr2
      omega
    have hrr3 : ((seUnlinked ps).get ⟨j3, hu3⟩).roundNumber =
        ((seUnlinked ps).get ⟨j1, hu1⟩).roundNumber := by
      rw [← e13] at hr3
      omega
    rw [hrr2, ← e12] at hf2
    rw [hrr3, ← e13] at hf3
    have hFnd : ((seUnlinked ps).filter (fun x => x.roundNumber ==
        ((seUnlinked ps).get ⟨j1, hu1⟩).roundNumber + 1)).Nodup :=
      (seUnlinked_nodup ps).filter _
    obtain ⟨hk1, hk1e⟩ := List.getElem?_eq_some_iff.mp hf1
    obtain ⟨hk2, hk2e⟩ := List.getElem?_eq_some_iff.mp hf2
    obtain ⟨hk3, hk3e⟩ := List.getElem?_eq_some_iff.mp hf3
    have hkk2 : (((seUnlinked ps).take j1).countP (fun x => x.roundNumber ==
        ((seUnlinked ps).get ⟨j1, hu1⟩).roundNumber)) / 2 =
        (((seUnlinked ps).take j2).countP (fun x => x.roundNumber ==
        ((seUnlinked ps).get ⟨j1, hu1⟩).roundNumber)) / 2 :=
      (hFnd.getElem_inj_iff).mp (by rw [hk1e, hk2e])
    have hkk3 : (((seUnlinked ps).take j1).countP (fun x => x.roundNumber ==
        ((seUnlinked ps).get ⟨j1, hu1⟩).roundNumber)) / 2 =
        (((seUnlinked ps).take j3).countP (fun x => x.roundNumber ==
        ((seUnlinked ps).get ⟨j1, hu1⟩).roundNumber)) / 2 :=
      (hFnd.getElem_inj_iff).mp (by rw [hk1e, hk3e])
    have hq1 : (fun x => x.roundNumber ==
        ((seUnlinked ps).get ⟨j1, hu1⟩).roundNumber) ((seUnlinked ps)[j1]) = true := by
      simp
    have hq2 : (fun x => x.roundNumber ==
        ((seUnlinked ps).get ⟨j1, hu1⟩).roundNumber) ((seUnlinked ps)[j2]) = true := by
      simp only [beq_iff_eq]
      exact hrr2
    have hmono12 := countP_take_lt (fun x => x.roundNumber ==
        ((seUnlinked ps).get ⟨j1, hu1⟩).roundNumber) (seUnlinked ps) j1 j2 h12
      (le_of_lt hu2) hu1 hq1
    have hmono23 := countP_take_lt (fun x => x.roundNumber ==
        ((seUnlinked ps).get ⟨j1, hu1⟩).roundNumber) (seUnlinked ps) j2 j3 h23
      (le_of_lt hu3) hu2 hq2
    omega

/-- C6 witness: four participants, a two-round bracket. -/
theorem generateSingleEliminationFixtures_links_witness :
    2 ≤ ([{ id := "a", name := "A", seed := some 1 },
          { id := "b", name := "B", seed := some 2 },
          { id := "c", name := "C", seed := some 3 },
          { id := "d", name := "D", seed := some 4 }] : List Participant).length ∧
    seLinkSpec [{ id := "a", name := "A", seed := some 1 },
          { id := "b", name := "B", seed := some 2 },
          { id := "c", name := "C", seed := some 3 },
          { id := "d", name := "D", seed := some 4 }] :=
  ⟨by decide, generateSingleEliminationFixtures_links _ (by decide)⟩

theorem foldl_upd_eq (l : List (Nat × Participant)) :
    ∀ (base : Nat → Option Participant) (k : Nat),
      (l.foldl (fun acc ip => fun k2 => if k2 = posKey ip then some ip.2 else acc k2) base) k =
      (match l.reverse.find? (fun ip => posKey ip == k) with
       | some ip => some ip.2
       | none => base k) := by
  induction l with
  | nil => intro base k; rfl
  | cons ip t ih =>
    intro base k
    rw [List.foldl_cons, ih, List.reverse_cons, List.find?_append]
    cases hfind : t.reverse.find? (fun ip2 => posKey ip2 == k) with
    | some ip2 => rfl
    | none =>
      by_cases hk : posKey ip = k
      · rw [List.find?_cons_of_pos _ (by simpa using hk)]
        show (if k = posKey ip then some ip.2 else base k) = some ip.2
        rw [if_pos hk.symm]
      · rw [List.find?_cons_of_neg _ (by simpa using hk), List.find?_nil]
        show (if k = posKey ip then some ip.2 else base k) = base k
        rw [if_neg (fun hh => hk hh.symm)]

theorem participantPositions_some (ps : List Participant) (k : Nat) (p : Participant)
    (h : participantPositions ps k = some p) :
    ∃ i, (i, p) ∈ ps.enum ∧ posKey (i, p) = k := by
  have h0 := foldl_upd_eq ps.enum (fun _ => none) k
  have h2 : (match ps.enum.reverse.find? (fun ip => posKey ip == k) with
      | some ip => some ip.2
      | none => (fun _ => (none : Option Participant)) k) = some p := by
    rw [← h0]
    exact h
  cases hf : ps.enum.reverse.find? (fun ip => posKey ip == k) with
  | none =>
    rw [hf] at h2
    exact Option.noConfusion h2
  | some ip =>
    rw [hf] at h2
    have hp : ip.2 = p := Option.some_inj.mp h2
    have hmem : ip ∈ ps.enum.reverse := List.mem_of_find?_eq_some hf
    have hkey := List.find?_some hf
    refine ⟨ip.1, ?_, ?_⟩
    · rw [← hp, Prod.mk.eta]
      exact List.mem_reverse.mp hmem
    · have : posKey ip = k := by simpa using hkey
      rw [← hp, Prod.mk.eta]
      exact this

theorem participantPositions_ne_none (ps : List Participant) (k : Nat)
    (hex : ∃ ip, ip ∈ ps.enum ∧ posKey ip = k) : participantPositions ps k ≠ none := by
  obtain ⟨ip, hmem, hkey⟩ := hex
  have hs : (ps.enum.reverse.find? (fun ip2 => posKey ip2 == k)).isSome = true := by
    rw [List.find?_isSome]
    exact ⟨ip, List.mem_reverse.mpr hmem, by simpa using hkey⟩
  intro hnone
  have h0 := foldl_upd_eq ps.enum (fun _ => none) k
  have h3 : (match ps.enum.reverse.find? (fun ip2 => posKey ip2 == k) with
      | some ip2 => some ip2.2
      | none => (fun _ => (none : Option Participant)) k) = none := by
    rw [← h0]
    exact hnone
  cases hf : ps.enum.reverse.find? (fun ip2 => posKey ip2 == k) with
  | none => rw [hf] at hs; exact Bool.noConfusion hs
  | some ip2 =>
    rw [hf] at h3
    exact Option.noConfusion h3

/-- The expected content of one bracket slot: slots whose bracket position is
below `n` hold the participant whose seed is `position + 1`; the rest are
byes (empty). -/
def slotAssign (ps : List Participant) (pos : Nat) (slot : Option String) : Prop :=
  if pos < ps.length then ∃ p, p ∈ ps ∧ p.seed = some (pos + 1) ∧ slot = some p.id
  else slot = none

theorem seSlot_assign (ps : List Participant)
    (hseed : (ps.map Participant.seed).Perm
      ((List.range ps.length).map (fun i => some (i + 1))))
    (pos : Nat) : slotAssign ps pos (seSlot ps ps.length pos) := by
  have hA : ∀ p ∈ ps, ∃ s, p.seed = some s ∧ 1 ≤ s ∧ s ≤ ps.length := by
    intro p hp
    have h1 : p.seed ∈ ps.map Participant.seed := List.mem_map_of_mem _ hp
    have h2 := hseed.mem_iff.mp h1
    simp only [List.mem_map, List.mem_range] at h2
    obtain ⟨i, hi, hie⟩ := h2
    exact ⟨i + 1, hie.symm, by omega, by omega⟩
  have hB : ∀ k, k < ps.length → ∃ p, p ∈ ps ∧ p.seed = some (k + 1) := by
    intro k hk
    have h1 : (some (k + 1) : Option Nat) ∈
        (List.range ps.length).map (fun i => some (i + 1)) := by
      simp only [List.mem_map, List.mem_range]
      exact ⟨k, hk, rfl⟩
    have h2 := hseed.mem_iff.mpr h1
    simp only [List.mem_map] at h2
    obtain ⟨p, hp, hpe⟩ := h2
    exact ⟨p, hp, hpe⟩
  unfold slotAssign seSlot
  by_cases hpos : pos < ps.length
  · rw [if_pos hpos]
    cases hpp : participantPositions ps pos with
    | some p =>
      obtain ⟨i, hienum, hkey⟩ := participantPositions_some ps pos p hpp
      have hmem : p ∈ ps := by
        have h5 := List.mem_enum_iff_getElem?.mp hienum
        have h6 : ps[i]? = some p := h5
        obtain ⟨hlt, hg⟩ := List.getElem?_eq_some_iff.mp h6
        rw [← hg]
        exact List.getElem_mem hlt
      obtain ⟨s, hs, hs1, hsn⟩ := hA p hmem
      have hkey2 : s - 1 = pos := by
        simp only [posKey, hs] at hkey
        exact hkey
      have hspos : s = pos + 1 := by omega
      refine ⟨p, hmem, by rw [hs, hspos], ?_⟩
      show (if pos < ps.length then some p.id else none) = some p.id
      rw [if_pos hpos]
    | none =>
      exfalso
      obtain ⟨p, hp, hpe⟩ := hB pos hpos
      obtain ⟨i, hilt, hig⟩ := List.mem_iff_getElem.mp hp
      refine participantPositions_ne_none ps pos ⟨(i, p), ?_, ?_⟩ hpp
      · rw [List.mem_enum_iff_getElem?]
        rw [List.getElem?_eq_getElem hilt, hig]
      · simp only [posKey, hpe]
        omega
  · rw [if_neg hpos]
    cases hpp : participantPositions ps pos with
    | some p =>
      show (if pos < ps.length then some p.id else none) = none
      rw [if_neg hpos]
    | none => rfl

theorem seRaw_succ (R0 T : Nat) : seRaw (R0 + 1) T =
    (List.range (T / 2)).map (fun i => (1, i)) ++
    ((List.range R0).map Nat.succ).flatMap (fun r0 =>
      (List.range (T / 2 ^ (r0 + 1))).map (fun i => (r0 + 1, i))) := by
  rw [seRaw, List.range_succ_eq_map, List.flatMap_cons]
  norm_num

theorem seRaw_rest_round (R0 T : Nat) (x : Nat × Nat)
    (hx : x ∈ ((List.range R0).map Nat.succ).flatMap (fun r0 =>
      (List.range (T / 2 ^ (r0 + 1))).map (fun i => (r0 + 1, i)))) : 2 ≤ x.1 := by
  simp only [List.mem_flatMap, List.mem_map, List.mem_range] at hx
  obtain ⟨a, ⟨b, hb, hba⟩, i, hi, hxe⟩ := hx
  rw [← hxe]
  omega

theorem seRaw_round1_block (R T j : Nat) (hR : 1 ≤ R) (hjlen : j < (seRaw R T).length)
    (h1 : ((seRaw R T).get ⟨j, hjlen⟩).1 = 1) :
    j < T / 2 ∧ (seRaw R T).get ⟨j, hjlen⟩ = (1, j) := by
  obtain ⟨R0, rfl⟩ : ∃ R0, R = R0 + 1 := ⟨R - 1, by omega⟩
  by_cases hj2 : j < T / 2
  · refine ⟨hj2, ?_⟩
    have hq : (seRaw (R0 + 1) T)[j]? = some (1, j) := by
      rw [seRaw_succ, List.getElem?_append]
      rw [if_pos (by simpa using hj2)]
      rw [List.getElem?_map, List.getElem?_range hj2]
      rfl
    rw [List.getElem?_eq_getElem hjlen] at hq
    exact Option.some_inj.mp hq
  · exfalso
    have hq : (seRaw (R0 + 1) T)[j]? = (((List.range R0).map Nat.succ).flatMap (fun r0 =>
        (List.range (T / 2 ^ (r0 + 1))).map (fun i => (r0 + 1, i))))[j - T / 2]? := by
      rw [seRaw_succ, List.getElem?_append]
      rw [if_neg (by simpa using hj2)]
      simp
    rw [List.getElem?_eq_getElem hjlen] at hq
    obtain ⟨hl, hg⟩ := List.getElem?_eq_some_iff.mp hq.symm
    have hmem : (seRaw (R0 + 1) T)[j] ∈
        ((List.range R0).map Nat.succ).flatMap (fun r0 =>
          (List.range (T / 2 ^ (r0 + 1))).map (fun i => (r0 + 1, i))) := by
      rw [← hg]
      exact List.getElem_mem hl
    have h8 := seRaw_rest_round R0 T _ hmem
    have h9 : ((seRaw (R0 + 1) T)[j]).1 = 1 := h1
    omega

/-- C10 as one statement: matches of rounds 2 and later have both slots
empty (so in particular no bye is auto-advanced), and round-1 match `i`
(match number `i + 1`) carries in its two slots exactly the participants
whose seeds are `bracketPositions[2i] + 1` and `bracketPositions[2i+1] + 1`,
with positions at or beyond `n` left empty (byes). -/
def seRound1Spec (ps : List Participant) : Prop :=
  (∀ m ∈ generateSingleEliminationFixtures ps, 2 ≤ m.roundNumber →
    m.participant1Id = none ∧ m.participant2Id = none) ∧
  (∀ m ∈ generateSingleEliminationFixtures ps, m.roundNumber = 1 →
    ∃ i, i < 2 ^ ceilLog2 ps.length / 2 ∧ m.matchNumber = i + 1 ∧
      slotAssign ps ((seBracketPositions (2 ^ ceilLog2 ps.length)).getD (2 * i) 0)
        m.participant1Id ∧
      slotAssign ps ((seBracketPositions (2 ^ ceilLog2 ps.length)).getD (2 * i + 1) 0)
        m.participant2Id)

/-- C10: with seeds exactly `1..n`, the generator places the participant
with seed `s` at bracket position `s - 1` in round 1, leaves positions at
or beyond `n` as byes, and leaves both participant slots of all later-round
matches empty. -/
theorem generateSingleEliminationFixtures_round1 (ps : List Participant)
    (h2 : 2 ≤ ps.length)
    (hseed : (ps.map Participant.seed).Perm
      ((List.range ps.length).map (fun i => some (i + 1)))) :
    seRound1Spec ps := by
  have hR : 1 ≤ ceilLog2 ps.length := by
    rw [ceilLog2_eq_clog]
    exact Nat.clog_pos (by norm_num) (by omega)
  constructor
  · intro m hm hge
    obtain ⟨j, hj, hlink⟩ := linkBracketProgression_mem _ _ m hm
    have hfields := linkAt_fields (seUnlinked ps) (ceilLog2 ps.length) j ((seUnlinked ps)[j])
    have hlenraw : j < (seRaw (ceilLog2 ps.length) (2 ^ ceilLog2 ps.length)).length := by
      rw [← seUnlinked_length]
      exact hj
    have hr := List.getElem?_eq_getElem hlenraw
    have hget := seUnlinked_getElem? ps j _ hr
    rw [List.getElem?_eq_getElem hj] at hget
    have hume := Option.some_inj.mp hget
    have hround : m.roundNumber =
        (seRaw (ceilLog2 ps.length) (2 ^ ceilLog2 ps.length))[j].1 := by
      rw [hlink, hfields.2.1, hume]
    have hne1 : ¬ ((seRaw (ceilLog2 ps.length) (2 ^ ceilLog2 ps.length))[j].1 = 1) := by
      omega
    constructor
    · rw [hlink, hfields.2.2.2.1, hume]
      show (if (seRaw (ceilLog2 ps.length) (2 ^ ceilLog2 ps.length))[j].1 = 1 then
        seSlot ps ps.length ((seBracketPositions (2 ^ ceilLog2 ps.length)).getD
          (2 * (seRaw (ceilLog2 ps.length) (2 ^ ceilLog2 ps.length))[j].2) 0) else none) = none
      rw [if_neg hne1]
    · rw [hlink, hfields.2.2.2.2, hume]
      show (if (seRaw (ceilLog2 ps.length) (2 ^ ceilLog2 ps.length))[j].1 = 1 then
        seSlot ps ps.length ((seBracketPositions (2 ^ ceilLog2 ps.length)).getD
          (2 * (seRaw (ceilLog2 ps.length) (2 ^ ceilLog2 ps.length))[j].2 + 1) 0)
        else none) = none
      rw [if_neg hne1]
  · intro m hm h1
    obtain ⟨j, hj, hlink⟩ := linkBracketProgression_mem _ _ m hm
    have hfields := linkAt_fields (seUnlinked ps) (ceilLog2 ps.length) j ((seUnlinked ps)[j])
    have hlenraw : j < (seRaw (ceilLog2 ps.length) (2 ^ ceilLog2 ps.length)).length := by
      rw [← seUnlinked_length]
      exact hj
    have hr := List.getElem?_eq_getElem hlenraw
    have hget := seUnlinked_getElem? ps j _ hr
    rw [List.getElem?_eq_getElem hj] at hget
    have hume := Option.some_inj.mp hget
    have hround : m.roundNumber =
        (seRaw (ceilLog2 ps.length) (2 ^ ceilLog2 ps.length))[j].1 := by
      rw [hlink, hfields.2.1, hume]
    have hraw1 : ((seRaw (ceilLog2 ps.length) (2 ^ ceilLog2 ps.length)).get
        ⟨j, hlenraw⟩).1 = 1 := by
      rw [h1] at hround
      exact hround.symm
    obtain ⟨hjT, hrawe⟩ := seRaw_round1_block (ceilLog2 ps.length)
      (2 ^ ceilLog2 ps.length) j hR hlenraw hraw1
    have hr1 : (seRaw (ceilLog2 ps.length) (2 ^ ceilLog2 ps.length))[j] = (1, j) := hrawe
    refine ⟨j, hjT, ?_, ?_, ?_⟩
    · rw [hlink, hfields.2.2.1, hume]
    · have hp1 : m.participant1Id = seSlot ps ps.length
          ((seBracketPositions (2 ^ ceilLog2 ps.length)).getD (2 * j) 0) := by
        rw [hlink, hfields.2.2.2.1, hume]
        show (if (seRaw (ceilLog2 ps.length) (2 ^ ceilLog2 ps.length))[j].1 = 1 then
          seSlot ps ps.length ((seBracketPositions (2 ^ ceilLog2 ps.length)).getD
            (2 * (seRaw (ceilLog2 ps.length) (2 ^ ceilLog2 ps.length))[j].2) 0)
          else none) = _
        rw [hr1]
        rfl
      rw [hp1]
      exact seSlot_assign ps hseed _
    · have hp2 : m.participant2Id = seSlot ps ps.length
          ((seBracketPositions (2 ^ ceilLog2 ps.length)).getD (2 * j + 1) 0) := by
        rw [hlink, hfields.2.2.2.2, hume]
        show (if (seRaw (ceilLog2 ps.length) (2 ^ ceilLog2 ps.length))[j].1 = 1 then
          seSlot ps ps.length ((seBracketPositions (2 ^ ceilLog2 ps.length)).getD
            (2 * (seRaw (ceilLog2 ps.length) (2 ^ ceilLog2 ps.length))[j].2 + 1) 0)
          else none) = _
        rw [hr1]
        rfl
      rw [hp2]
      exact seSlot_assign ps hseed _

/-- C10 witness: three participants seeded 1..3 (one bye in the 4-slot
bracket). -/
theorem generateSingleEliminationFixtures_round1_witness :
    2 ≤ ([{ id := "a", name := "A", seed := some 1 },
          { id := "b", name := "B", seed := some 2 },
          { id := "c", name := "C", seed := some 3 }] : List Participant).length ∧
    seRound1Spec [{ id := "a", name := "A", seed := some 1 },
          { id := "b", name := "B", seed := some 2 },
          { id := "c", name := "C", seed := some 3 }] :=
  ⟨by decide, generateSingleEliminationFixtures_round1 _ (by decide) (by decide)⟩
